import Mathlib

/-!
Verification of the `lru` package: a generic, capacity-bounded LRU cache with
lazy TTL invalidation.

Shallow embedding notes:
* Go `time.Time` and `time.Duration` are modelled as `Int` instants/durations;
  `t.Before(u)` is `t < u` and `time.Now().Add(ttl)` is `now + ttl`, with the
  current time passed explicitly to each operation.
* The `map[K]*list.Element` index together with the `container/list` recency
  list is modelled by giving every list node a stable identifier (`Nat`),
  allocated from a `nextId` counter (modelling pointer allocation): the index
  is an association list `K ↦ id` and the recency list is a list of
  `(id, cached)` pairs, front = head.  Dereferencing a map handle is looking
  up the id in the recency list.
* The mutex is not modelled: operations are atomic state transformers.
* Go's zero value for `V` is `default` from an `Inhabited` instance.
-/

namespace LRU

/-- Embedding of `cached[K, V]` from `cached.go`: the value stored in a
recency-list node. -/
structure cached (K V : Type) where
  key : K
  value : V
  expiredAt : Int
deriving Repr, DecidableEq

/-- Embedding of `cached.expired` from `cached.go`:
`c.expiredAt.Before(now)`. -/
def cached.expired {K V : Type} (c : cached K V) (now : Int) : Bool :=
  c.expiredAt < now

/-- Lookup in the Go map `items`, modelled as an association list from keys to
node identifiers: the first binding for the key, if any. -/
def mapLookup {K : Type} [DecidableEq K] : List (K × Nat) → K → Option Nat
  | [], _ => none
  | (k', i) :: rest, k => if k = k' then some i else mapLookup rest k

/-- `delete(c.items, key)`: remove the binding for a key. -/
def mapDelete {K : Type} [DecidableEq K] (m : List (K × Nat)) (k : K) :
    List (K × Nat) :=
  m.filter (fun p => p.1 ≠ k)

/-- `c.items[k] = e`: map assignment (overwrites any previous binding). -/
def mapInsert {K : Type} [DecidableEq K] (m : List (K × Nat)) (k : K) (i : Nat) :
    List (K × Nat) :=
  (k, i) :: mapDelete m k

/-- Dereferencing a `*list.Element` handle: find the node with the given
identifier in the recency list. -/
def listFind {K V : Type} : List (Nat × cached K V) → Nat → Option (cached K V)
  | [], _ => none
  | (j, e) :: rest, i => if i = j then some e else listFind rest i

/-- `list.Remove(e)`: drop the node with the given identifier. -/
def listRemove {K V : Type} (l : List (Nat × cached K V)) (i : Nat) :
    List (Nat × cached K V) :=
  l.filter (fun p => p.1 ≠ i)

/-- `e.Value = v`: overwrite the value stored in the node with the given
identifier, in place. -/
def listUpdate {K V : Type} (l : List (Nat × cached K V)) (i : Nat)
    (e : cached K V) : List (Nat × cached K V) :=
  l.map (fun p => if p.1 = i then (i, e) else p)

/-- `list.MoveToFront(e)`: if the node is in the list, move it to the front,
keeping the relative order of the others; otherwise leave the list unchanged
(as `container/list` does when `e` is not an element of `l`). -/
def moveToFront {K V : Type} (l : List (Nat × cached K V)) (i : Nat) :
    List (Nat × cached K V) :=
  match listFind l i with
  | none => l
  | some e => (i, e) :: listRemove l i

/-- `defaultSize` from the package: the default capacity. -/
def defaultSize : Int := 128

/-- Embedding of `Cache[K, V]`: index, recency list (front = most recent),
capacity and ttl, plus the allocation counter for node identifiers. -/
structure Cache (K V : Type) where
  items : List (K × Nat)
  evictList : List (Nat × cached K V)
  capacity : Int
  ttl : Int
  nextId : Nat
deriving Repr, DecidableEq

/-- Embedding of `cacheOptions` from `options.go` (Go zero value:
`capacity = 0`, `ttl = 0`). -/
structure cacheOptions where
  capacity : Int
  ttl : Int
deriving Repr, DecidableEq

/-- The Go `Option` type `func(*cacheOptions)`; `none` models a nil function
value, which `New` skips. -/
def CacheOption : Type := Option (cacheOptions → cacheOptions)

/-- Embedding of `WithCapacity` from `options.go`: ignores non-positive
capacities. -/
def WithCapacity (capacity : Int) : CacheOption :=
  some (fun o => if capacity > 0 then { o with capacity := capacity } else o)

/-- Embedding of `WithTTL` from `options.go`: ignores negative TTLs. -/
def WithTTL (ttl : Int) : CacheOption :=
  some (fun o => if ttl ≥ 0 then { o with ttl := ttl } else o)

/-- One iteration of the option loop in `New`: a nil option is skipped,
any other option is applied. -/
def applyOption (o : cacheOptions) (opt : CacheOption) : cacheOptions :=
  match opt with
  | none => o
  | some f => f o

/-- The option-application loop of `New`: start from the zero-valued
`cacheOptions`, skip nil options, apply the rest in order. -/
def applyOptions (opts : List CacheOption) : cacheOptions :=
  opts.foldl applyOption { capacity := 0, ttl := 0 }

/-- The options the package itself exports: a nil option value, a
`WithCapacity`, or a `WithTTL`. -/
def StdOption (o : CacheOption) : Prop :=
  o = none ∨ (∃ n, o = WithCapacity n) ∨ (∃ d, o = WithTTL d)

/-- Embedding of `New`: resolve the options (flooring the capacity at
`defaultSize` when non-positive) and return the empty cache together with the
`error` result, modelled as `Option String` (`none` = nil error). -/
def New (K V : Type) (opts : List CacheOption) : Cache K V × Option String :=
  let o := applyOptions opts
  let cap := if o.capacity ≤ 0 then defaultSize else o.capacity
  ({ items := []
     evictList := []
     capacity := cap
     ttl := o.ttl
     nextId := 0 }, none)

/-- Embedding of `Cache.Set`.  `expires = now + ttl`; if the key is present,
overwrite its node's value and move the node to the front; otherwise evict the
back node first when `Len() >= capacity` (skipping eviction when the list is
empty), then push a fresh node to the front and register it in the index. -/
def Cache.Set {K V : Type} [DecidableEq K] (c : Cache K V) (k : K) (v : V)
    (now : Int) : Cache K V :=
  let expires := now + c.ttl
  let newVal : cached K V := { key := k, value := v, expiredAt := expires }
  match mapLookup c.items k with
  | some i =>
      { c with evictList := moveToFront (listUpdate c.evictList i newVal) i }
  | none =>
      let c1 :=
        if (c.evictList.length : Int) ≥ c.capacity then
          match c.evictList.getLast? with
          | some last =>
              { c with
                  evictList := c.evictList.dropLast
                  items := mapDelete c.items last.2.key }
          | none => c
        else c
      { c1 with
          evictList := (c1.nextId, newVal) :: c1.evictList
          items := mapInsert c1.items k c1.nextId
          nextId := c1.nextId + 1 }

/-- Embedding of `Cache.Get`: returns `(value, presented)` and the resulting
cache state.  A miss, or a hit on an expired entry when `ttl ≠ 0`, returns the
zero value with `presented = false` and leaves the state unchanged; a live hit
moves the node to the front. -/
def Cache.Get {K V : Type} [DecidableEq K] [Inhabited V] (c : Cache K V)
    (k : K) (now : Int) : V × Bool × Cache K V :=
  match mapLookup c.items k with
  | none => (default, false, c)
  | some i =>
      match listFind c.evictList i with
      | none => (default, false, c)
      | some val =>
          if c.ttl ≠ 0 ∧ val.expired now then (default, false, c)
          else (val.value, true, { c with evictList := moveToFront c.evictList i })

/-- A completed client operation: a `Set` or a `Get`, each with the wall-clock
instant at which it ran. -/
inductive Op (K V : Type) where
  | set (k : K) (v : V) (now : Int)
  | get (k : K) (now : Int)

/-- Run a sequence of completed operations against a cache state. -/
def runOps {K V : Type} [DecidableEq K] [Inhabited V] (c : Cache K V) :
    List (Op K V) → Cache K V
  | [] => c
  | Op.set k v now :: rest => runOps (c.Set k v now) rest
  | Op.get k now :: rest => runOps (c.Get k now).2.2 rest

/-- The key set of the index and the key set of the recency list agree, and
each index binding points at a node storing that very key: the statement of
the bijection invariant as the spec phrases it. -/
def Bijection {K V : Type} [DecidableEq K] (c : Cache K V) : Prop :=
  (∀ k, (mapLookup c.items k).isSome ↔ ∃ p ∈ c.evictList, p.2.key = k) ∧
  (∀ k i, mapLookup c.items k = some i → ∃ e, (i, e) ∈ c.evictList ∧ e.key = k)

/-- The structural invariant tying the index to the recency list: sizes agree
and stay within capacity, keys bind to identifiers of live nodes holding that
key, every node is indexed under its stored key, keys and identifiers are
unique, identifiers are below the allocation counter, and the resolved
configuration is well-formed (`capacity ≥ 1`, `ttl ≥ 0`). -/
structure Inv {K V : Type} [DecidableEq K] (c : Cache K V) : Prop where
  len_eq : c.items.length = c.evictList.length
  len_le : (c.evictList.length : Int) ≤ c.capacity
  cap_pos : 0 < c.capacity
  ttl_nonneg : 0 ≤ c.ttl
  keys_nodup : (c.items.map Prod.fst).Nodup
  ids_nodup : (c.evictList.map Prod.fst).Nodup
  ids_lt : ∀ p ∈ c.evictList, p.1 < c.nextId
  map_node : ∀ k i, mapLookup c.items k = some i →
    ∃ e, (i, e) ∈ c.evictList ∧ e.key = k
  node_map : ∀ i e, (i, e) ∈ c.evictList → mapLookup c.items e.key = some i

section MapLemmas

variable {K V : Type} [DecidableEq K]

theorem mapLookup_eq_none {m : List (K × Nat)} {k : K} :
    mapLookup m k = none ↔ ∀ p ∈ m, p.1 ≠ k := by
  induction m with
  | nil => simp [mapLookup]
  | cons p rest ih =>
    obtain ⟨k', i⟩ := p
    by_cases h : k = k'
    · subst h
      simp [mapLookup]
    · simp [mapLookup, h, ih, Ne.symm h]

theorem mapLookup_isSome {m : List (K × Nat)} {k : K} :
    (mapLookup m k).isSome ↔ k ∈ m.map Prod.fst := by
  induction m with
  | nil => simp [mapLookup]
  | cons p rest ih =>
    obtain ⟨k', i⟩ := p
    by_cases h : k = k'
    · subst h
      simp [mapLookup]
    · simp [mapLookup, h, ih]

theorem mapLookup_mem {m : List (K × Nat)} {k : K} {i : Nat}
    (h : mapLookup m k = some i) : (k, i) ∈ m := by
  induction m with
  | nil => simp [mapLookup] at h
  | cons p rest ih =>
    obtain ⟨k', j⟩ := p
    by_cases hk : k = k'
    · subst hk
      simp [mapLookup] at h
      subst h
      exact List.mem_cons_self _ _
    · simp [mapLookup, hk] at h
      exact List.mem_cons_of_mem _ (ih h)

theorem mapLookup_of_mem {m : List (K × Nat)} {k : K} {i : Nat}
    (hmem : (k, i) ∈ m) (hnd : (m.map Prod.fst).Nodup) :
    mapLookup m k = some i := by
  induction m with
  | nil => simp at hmem
  | cons p rest ih =>
    obtain ⟨k', j⟩ := p
    simp only [List.map_cons, List.nodup_cons] at hnd
    rcases List.mem_cons.mp hmem with heq | htl
    · cases heq
      simp [mapLookup]
    · have hk : k ≠ k' := by
        rintro rfl
        exact hnd.1 (List.mem_map.mpr ⟨(k, i), htl, rfl⟩)
      simp [mapLookup, hk, ih htl hnd.2]

theorem mapLookup_mapDelete {m : List (K × Nat)} {k k' : K} :
    mapLookup (mapDelete m k) k' = if k' = k then none else mapLookup m k' := by
  induction m with
  | nil => simp [mapLookup, mapDelete]
  | cons p rest ih =>
    obtain ⟨k'', i⟩ := p
    by_cases hk : k'' = k
    · subst hk
      have h1 : mapDelete ((k'', i) :: rest) k'' = mapDelete rest k'' := by
        simp [mapDelete, List.filter_cons]
      rw [h1, ih]
      by_cases hk' : k' = k''
      · simp [hk']
      · simp [mapLookup, hk']
    · have h1 : mapDelete ((k'', i) :: rest) k = (k'', i) :: mapDelete rest k := by
        simp [mapDelete, List.filter_cons, hk]
      rw [h1]
      by_cases hk' : k' = k''
      · subst hk'
        simp [mapLookup, hk]
      · simp [mapLookup, hk', ih]

theorem mapDelete_of_absent {m : List (K × Nat)} {k : K}
    (h : mapLookup m k = none) : mapDelete m k = m := by
  rw [mapLookup_eq_none] at h
  exact List.filter_eq_self.mpr (fun p hp => by simpa using h p hp)

theorem mapDelete_sublist (m : List (K × Nat)) (k : K) :
    (mapDelete m k).Sublist m :=
  List.filter_sublist m

theorem mapDelete_keys_nodup {m : List (K × Nat)} {k : K}
    (hnd : (m.map Prod.fst).Nodup) : ((mapDelete m k).map Prod.fst).Nodup :=
  List.Nodup.sublist (List.Sublist.map Prod.fst (mapDelete_sublist m k)) hnd

theorem mapDelete_length {m : List (K × Nat)} {k : K} {i : Nat}
    (hmem : (k, i) ∈ m) (hnd : (m.map Prod.fst).Nodup) :
    (mapDelete m k).length + 1 = m.length := by
  induction m with
  | nil => simp at hmem
  | cons p rest ih =>
    obtain ⟨k', j⟩ := p
    simp only [List.map_cons, List.nodup_cons] at hnd
    rcases List.mem_cons.mp hmem with heq | htl
    · cases heq
      have hnone : mapLookup rest k = none :=
        mapLookup_eq_none.mpr
          (fun p hp hpk => hnd.1 (List.mem_map.mpr ⟨p, hp, hpk⟩))
      have h1 : mapDelete ((k, i) :: rest) k = mapDelete rest k := by
        simp [mapDelete, List.filter_cons]
      rw [h1, mapDelete_of_absent hnone, List.length_cons]
    · have hk' : k' ≠ k := by
        rintro rfl
        exact hnd.1 (List.mem_map.mpr ⟨(k', i), htl, rfl⟩)
      have h1 : mapDelete ((k', j) :: rest) k = (k', j) :: mapDelete rest k := by
        simp [mapDelete, List.filter_cons, hk']
      rw [h1]
      have h2 := ih htl hnd.2
      simp only [List.length_cons]
      omega

end MapLemmas

section ListLemmas

variable {K V : Type}

theorem listFind_eq_none {l : List (Nat × cached K V)} {i : Nat} :
    listFind l i = none ↔ ∀ p ∈ l, p.1 ≠ i := by
  induction l with
  | nil => simp [listFind]
  | cons p rest ih =>
    obtain ⟨j, e⟩ := p
    by_cases h : i = j
    · subst h
      simp [listFind]
    · simp [listFind, h, ih, Ne.symm h]

theorem listFind_mem {l : List (Nat × cached K V)} {i : Nat} {e : cached K V}
    (h : listFind l i = some e) : (i, e) ∈ l := by
  induction l with
  | nil => simp [listFind] at h
  | cons p rest ih =>
    obtain ⟨j, e'⟩ := p
    by_cases hj : i = j
    · subst hj
      simp [listFind] at h
      subst h
      exact List.mem_cons_self _ _
    · simp [listFind, hj] at h
      exact List.mem_cons_of_mem _ (ih h)

theorem listFind_isSome_of_mem {l : List (Nat × cached K V)} {i : Nat}
    {e : cached K V} (h : (i, e) ∈ l) : (listFind l i).isSome := by
  cases hf : listFind l i with
  | some e' => rfl
  | none => exact absurd rfl ((listFind_eq_none.mp hf) (i, e) h)

theorem mem_id_unique {l : List (Nat × cached K V)} {i : Nat}
    {a b : cached K V} (hnd : (l.map Prod.fst).Nodup)
    (ha : (i, a) ∈ l) (hb : (i, b) ∈ l) : a = b := by
  induction l with
  | nil => simp at ha
  | cons p rest ih =>
    obtain ⟨j, e⟩ := p
    simp only [List.map_cons, List.nodup_cons] at hnd
    rcases List.mem_cons.mp ha with h1 | h1
    · cases h1
      rcases List.mem_cons.mp hb with h2 | h2
      · cases h2
        rfl
      · exact absurd (List.mem_map.mpr ⟨(i, b), h2, rfl⟩) hnd.1
    · rcases List.mem_cons.mp hb with h2 | h2
      · cases h2
        exact absurd (List.mem_map.mpr ⟨(i, a), h1, rfl⟩) hnd.1
      · exact ih hnd.2 h1 h2

theorem listFind_of_mem {l : List (Nat × cached K V)} {i : Nat}
    {e : cached K V} (hnd : (l.map Prod.fst).Nodup) (hmem : (i, e) ∈ l) :
    listFind l i = some e := by
  cases hf : listFind l i with
  | none => exact absurd rfl ((listFind_eq_none.mp hf) (i, e) hmem)
  | some e' =>
    have he : e' = e := mem_id_unique hnd (listFind_mem hf) hmem
    rw [he]

theorem mem_listRemove {l : List (Nat × cached K V)} {i : Nat}
    {p : Nat × cached K V} : p ∈ listRemove l i ↔ p ∈ l ∧ p.1 ≠ i := by
  simp [listRemove, List.mem_filter]

theorem listRemove_sublist (l : List (Nat × cached K V)) (i : Nat) :
    (listRemove l i).Sublist l :=
  List.filter_sublist l

theorem listRemove_ids_nodup {l : List (Nat × cached K V)} {i : Nat}
    (hnd : (l.map Prod.fst).Nodup) :
    ((listRemove l i).map Prod.fst).Nodup :=
  List.Nodup.sublist (List.Sublist.map Prod.fst (listRemove_sublist l i)) hnd

theorem listRemove_length {l : List (Nat × cached K V)} {i : Nat}
    {e : cached K V} (hmem : (i, e) ∈ l) (hnd : (l.map Prod.fst).Nodup) :
    (listRemove l i).length + 1 = l.length := by
  induction l with
  | nil => simp at hmem
  | cons p rest ih =>
    obtain ⟨j, e'⟩ := p
    simp only [List.map_cons, List.nodup_cons] at hnd
    rcases List.mem_cons.mp hmem with heq | htl
    · cases heq
      have h1 : listRemove ((i, e) :: rest) i = listRemove rest i := by
        simp [listRemove, List.filter_cons]
      have h2 : listRemove rest i = rest := by
        refine List.filter_eq_self.mpr (fun q hq => ?_)
        simp only [ne_eq, decide_eq_true_eq]
        rintro rfl
        exact hnd.1 (List.mem_map.mpr ⟨q, hq, rfl⟩)
      rw [h1, h2, List.length_cons]
    · have hj : j ≠ i := by
        rintro rfl
        exact hnd.1 (List.mem_map.mpr ⟨(j, e), htl, rfl⟩)
      have h1 : listRemove ((j, e') :: rest) i = (j, e') :: listRemove rest i := by
        simp [listRemove, List.filter_cons, hj]
      rw [h1]
      have h2 := ih htl hnd.2
      simp only [List.length_cons]
      omega

theorem listUpdate_ids (l : List (Nat × cached K V)) (i : Nat)
    (e : cached K V) : (listUpdate l i e).map Prod.fst = l.map Prod.fst := by
  induction l with
  | nil => rfl
  | cons p rest ih =>
    obtain ⟨j, e'⟩ := p
    simp only [listUpdate, List.map_cons] at ih ⊢
    rw [ih]
    by_cases h : j = i
    · subst h
      simp
    · simp [h]

theorem listUpdate_length (l : List (Nat × cached K V)) (i : Nat)
    (e : cached K V) : (listUpdate l i e).length = l.length :=
  List.length_map l _

theorem listUpdate_cons (j : Nat) (e' : cached K V)
    (rest : List (Nat × cached K V)) (i : Nat) (e : cached K V) :
    listUpdate ((j, e') :: rest) i e =
      (if j = i then (i, e) else (j, e')) :: listUpdate rest i e := by
  by_cases h : j = i
  · simp [listUpdate, h]
  · simp [listUpdate, h]

theorem listFind_listUpdate (l : List (Nat × cached K V)) (i : Nat)
    (e : cached K V) :
    listFind (listUpdate l i e) i = (listFind l i).map (fun _ => e) := by
  induction l with
  | nil => rfl
  | cons p rest ih =>
    obtain ⟨j, e'⟩ := p
    rw [listUpdate_cons]
    by_cases h : j = i
    · subst h
      rw [if_pos rfl]
      simp [listFind]
    · rw [if_neg h]
      simp [listFind, Ne.symm h, ih]

theorem listRemove_listUpdate (l : List (Nat × cached K V)) (i : Nat)
    (e : cached K V) :
    listRemove (listUpdate l i e) i = listRemove l i := by
  induction l with
  | nil => rfl
  | cons p rest ih =>
    obtain ⟨j, e'⟩ := p
    by_cases h : j = i
    · subst h
      simp [listUpdate, listRemove, List.filter_cons] at ih ⊢
      exact ih
    · simp [listUpdate, listRemove, List.filter_cons, h] at ih ⊢
      exact ih

theorem mem_listUpdate {l : List (Nat × cached K V)} {i : Nat}
    {e : cached K V} {p : Nat × cached K V} (h : p ∈ listUpdate l i e) :
    p = (i, e) ∨ (p ∈ l ∧ p.1 ≠ i) := by
  rcases List.mem_map.mp h with ⟨q, hq, hqe⟩
  by_cases hqi : q.1 = i
  · simp only [hqi, if_pos] at hqe
    exact Or.inl hqe.symm
  · simp only [hqi, if_neg, not_false_iff] at hqe
    exact Or.inr ⟨hqe ▸ hq, hqe ▸ hqi⟩

theorem mem_listUpdate_of_ne {l : List (Nat × cached K V)} {i : Nat}
    {e : cached K V} {p : Nat × cached K V} (hp : p ∈ l) (hne : p.1 ≠ i) :
    p ∈ listUpdate l i e := by
  refine List.mem_map.mpr ⟨p, hp, ?_⟩
  simp [hne]

theorem moveToFront_eq {l : List (Nat × cached K V)} {i : Nat}
    {e : cached K V} (h : listFind l i = some e) :
    moveToFront l i = (i, e) :: listRemove l i := by
  simp [moveToFront, h]

end ListLemmas

section StateLemmas

variable {K V : Type} [DecidableEq K]

theorem Set_present_eq {c : Cache K V} {k : K} {i : Nat}
    (h : mapLookup c.items k = some i) (v : V) (now : Int) :
    c.Set k v now =
      { c with
          evictList :=
            moveToFront
              (listUpdate c.evictList i
                { key := k, value := v, expiredAt := now + c.ttl }) i } := by
  simp [Cache.Set, h]

theorem Set_absent_evict_eq {c : Cache K V} {k : K}
    (h : mapLookup c.items k = none)
    (hcap : (c.evictList.length : Int) ≥ c.capacity)
    {last : Nat × cached K V} (hlast : c.evictList.getLast? = some last)
    (v : V) (now : Int) :
    c.Set k v now =
      { c with
          evictList :=
            (c.nextId, { key := k, value := v, expiredAt := now + c.ttl }) ::
              c.evictList.dropLast
          items := mapInsert (mapDelete c.items last.2.key) k c.nextId
          nextId := c.nextId + 1 } := by
  simp [Cache.Set, h, hcap, hlast]

theorem Set_absent_noevict_eq {c : Cache K V} {k : K}
    (h : mapLookup c.items k = none)
    (hcap : ¬ ((c.evictList.length : Int) ≥ c.capacity)) (v : V) (now : Int) :
    c.Set k v now =
      { c with
          evictList :=
            (c.nextId, { key := k, value := v, expiredAt := now + c.ttl }) ::
              c.evictList
          items := mapInsert c.items k c.nextId
          nextId := c.nextId + 1 } := by
  simp [Cache.Set, h, hcap]

theorem Get_miss_eq [Inhabited V] {c : Cache K V} {k : K}
    (h : mapLookup c.items k = none) (now : Int) :
    c.Get k now = (default, false, c) := by
  simp [Cache.Get, h]

theorem Get_dangling_eq [Inhabited V] {c : Cache K V} {k : K} {i : Nat}
    (h1 : mapLookup c.items k = some i) (h2 : listFind c.evictList i = none)
    (now : Int) : c.Get k now = (default, false, c) := by
  simp [Cache.Get, h1, h2]

theorem Get_expired_eq [Inhabited V] {c : Cache K V} {k : K} {i : Nat}
    {val : cached K V} (h1 : mapLookup c.items k = some i)
    (h2 : listFind c.evictList i = some val)
    {now : Int} (h3 : c.ttl ≠ 0 ∧ val.expired now) :
    c.Get k now = (default, false, c) := by
  simp [Cache.Get, h1, h2, h3]

theorem Get_hit_eq [Inhabited V] {c : Cache K V} {k : K} {i : Nat}
    {val : cached K V} (h1 : mapLookup c.items k = some i)
    (h2 : listFind c.evictList i = some val)
    {now : Int} (h3 : ¬ (c.ttl ≠ 0 ∧ val.expired now)) :
    c.Get k now =
      (val.value, true, { c with evictList := moveToFront c.evictList i }) := by
  simp only [Cache.Get, h1, h2]
  rw [if_neg h3]

end StateLemmas

section InvLemmas

variable {K V : Type} [DecidableEq K]

theorem Inv_promote {c : Cache K V} (hInv : Inv c) {i : Nat} {k : K}
    (hlook : mapLookup c.items k = some i) {newVal : cached K V}
    (hkey : newVal.key = k) :
    Inv { c with evictList := (i, newVal) :: listRemove c.evictList i } := by
  obtain ⟨e0, hmem, hkey0⟩ := hInv.map_node k i hlook
  have hlen := listRemove_length hmem hInv.ids_nodup
  have hle := hInv.len_le
  refine
    { len_eq := ?_
      len_le := ?_
      cap_pos := hInv.cap_pos
      ttl_nonneg := hInv.ttl_nonneg
      keys_nodup := hInv.keys_nodup
      ids_nodup := ?_
      ids_lt := ?_
      map_node := ?_
      node_map := ?_ }
  · have := hInv.len_eq
    simp only [List.length_cons]
    omega
  · simp only [List.length_cons]
    omega
  · simp only [List.map_cons, List.nodup_cons]
    refine ⟨?_, listRemove_ids_nodup hInv.ids_nodup⟩
    intro hmemId
    rcases List.mem_map.mp hmemId with ⟨p, hp, hpi⟩
    exact (mem_listRemove.mp hp).2 hpi
  · intro p hp
    rcases List.mem_cons.mp hp with heq | htl
    · cases heq
      exact hInv.ids_lt (i, e0) hmem
    · exact hInv.ids_lt _ (mem_listRemove.mp htl).1
  · intro k' i' h'
    obtain ⟨e', hm', hk'⟩ := hInv.map_node k' i' h'
    by_cases hii : i' = i
    · subst hii
      have he : e' = e0 := mem_id_unique hInv.ids_nodup hm' hmem
      refine ⟨newVal, List.mem_cons_self _ _, ?_⟩
      rw [hkey, ← hkey0, ← he, hk']
    · exact ⟨e', List.mem_cons_of_mem _ (mem_listRemove.mpr ⟨hm', hii⟩), hk'⟩
  · intro i' e' hm'
    rcases List.mem_cons.mp hm' with heq | htl
    · cases heq
      rw [hkey]
      exact hlook
    · exact hInv.node_map i' e' (mem_listRemove.mp htl).1

theorem Inv_insert_noevict {c : Cache K V} (hInv : Inv c) {k : K}
    (hlook : mapLookup c.items k = none) {newVal : cached K V}
    (hkey : newVal.key = k)
    (hcap : ¬ ((c.evictList.length : Int) ≥ c.capacity)) :
    Inv { c with
            evictList := (c.nextId, newVal) :: c.evictList
            items := mapInsert c.items k c.nextId
            nextId := c.nextId + 1 } := by
  have hins : mapInsert c.items k c.nextId = (k, c.nextId) :: c.items := by
    rw [mapInsert, mapDelete_of_absent hlook]
  have hkabs : ∀ p ∈ c.items, p.1 ≠ k := mapLookup_eq_none.mp hlook
  refine
    { len_eq := ?_
      len_le := ?_
      cap_pos := hInv.cap_pos
      ttl_nonneg := hInv.ttl_nonneg
      keys_nodup := ?_
      ids_nodup := ?_
      ids_lt := ?_
      map_node := ?_
      node_map := ?_ }
  · have := hInv.len_eq
    simp only [hins, List.length_cons]
    omega
  · have := hInv.len_le
    simp only [List.length_cons]
    push_cast
    omega
  · simp only [hins, List.map_cons, List.nodup_cons]
    refine ⟨?_, hInv.keys_nodup⟩
    intro hk
    rcases List.mem_map.mp hk with ⟨p, hp, hpk⟩
    exact hkabs p hp hpk
  · simp only [List.map_cons, List.nodup_cons]
    refine ⟨?_, hInv.ids_nodup⟩
    intro hid
    rcases List.mem_map.mp hid with ⟨p, hp, hpi⟩
    exact absurd hpi (Nat.ne_of_lt (hInv.ids_lt p hp))
  · intro p hp
    rcases List.mem_cons.mp hp with heq | htl
    · cases heq
      exact Nat.lt_succ_self _
    · exact Nat.lt_succ_of_lt (hInv.ids_lt p htl)
  · intro k' i' h'
    simp only [hins, mapLookup] at h'
    by_cases hk' : k' = k
    · rw [if_pos hk'] at h'
      cases h'
      exact ⟨newVal, List.mem_cons_self _ _, hkey.trans hk'.symm⟩
    · rw [if_neg hk', mapDelete_of_absent hlook] at h'
      obtain ⟨e', hm', he'⟩ := hInv.map_node k' i' h'
      exact ⟨e', List.mem_cons_of_mem _ hm', he'⟩
  · intro i' e' hm'
    rcases List.mem_cons.mp hm' with heq | htl
    · cases heq
      simp only [hins, mapLookup, hkey, if_pos]
    · have hold := hInv.node_map i' e' htl
      have hne : e'.key ≠ k := by
        intro hk
        rw [hk, hlook] at hold
        exact Option.noConfusion hold
      simp only [hins, mapLookup, if_neg hne]
      rw [mapDelete_of_absent hlook]
      exact hold

theorem Inv_insert_evict {c : Cache K V} (hInv : Inv c) {k : K}
    (hlook : mapLookup c.items k = none) {last : Nat × cached K V}
    (hlast : c.evictList.getLast? = some last) {newVal : cached K V}
    (hkey : newVal.key = k) :
    Inv { c with
            evictList := (c.nextId, newVal) :: c.evictList.dropLast
            items := mapInsert (mapDelete c.items last.2.key) k c.nextId
            nextId := c.nextId + 1 } := by
  have hsplit : c.evictList.dropLast ++ [last] = c.evictList :=
    List.dropLast_append_getLast? last hlast
  have hlastmem : last ∈ c.evictList := by
    rw [← hsplit]
    exact List.mem_append_right _ (List.mem_singleton_self _)
  have hlastmem' : (last.1, last.2) ∈ c.evictList := by
    rw [Prod.mk.eta]
    exact hlastmem
  have hlookel : mapLookup c.items last.2.key = some last.1 :=
    hInv.node_map last.1 last.2 hlastmem'
  have hkel : (last.2.key, last.1) ∈ c.items := mapLookup_mem hlookel
  have hkabs : ∀ p ∈ c.items, p.1 ≠ k := mapLookup_eq_none.mp hlook
  have hkne : k ≠ last.2.key := by
    intro hk
    rw [← hk] at hlookel
    rw [hlookel] at hlook
    exact Option.noConfusion hlook
  have habs2 : mapLookup (mapDelete c.items last.2.key) k = none := by
    rw [mapLookup_mapDelete, if_neg hkne, hlook]
  have hins : mapInsert (mapDelete c.items last.2.key) k c.nextId =
      (k, c.nextId) :: mapDelete c.items last.2.key := by
    rw [mapInsert, mapDelete_of_absent habs2]
  have hlen_split : c.evictList.dropLast.length + 1 = c.evictList.length := by
    conv_rhs => rw [← hsplit]
    simp
  have hdel_len : (mapDelete c.items last.2.key).length + 1 = c.items.length :=
    mapDelete_length hkel hInv.keys_nodup
  have hnd_append : ((c.evictList.dropLast.map Prod.fst) ++
      ([last].map Prod.fst)).Nodup := by
    rw [← List.map_append, hsplit]
    exact hInv.ids_nodup
  obtain ⟨hnd_drop, _, hdisj⟩ := List.nodup_append.mp hnd_append
  have hlast_notin : last.1 ∉ c.evictList.dropLast.map Prod.fst := by
    intro h
    exact hdisj h (by simp)
  have hdropmem : ∀ p ∈ c.evictList.dropLast, p ∈ c.evictList :=
    fun p hp => (List.dropLast_sublist c.evictList).subset hp
  refine
    { len_eq := ?_
      len_le := ?_
      cap_pos := hInv.cap_pos
      ttl_nonneg := hInv.ttl_nonneg
      keys_nodup := ?_
      ids_nodup := ?_
      ids_lt := ?_
      map_node := ?_
      node_map := ?_ }
  · have := hInv.len_eq
    simp only [hins, List.length_cons]
    omega
  · have := hInv.len_le
    simp only [List.length_cons]
    push_cast
    omega
  · simp only [hins, List.map_cons, List.nodup_cons]
    refine ⟨?_, mapDelete_keys_nodup hInv.keys_nodup⟩
    intro hk
    rcases List.mem_map.mp hk with ⟨p, hp, hpk⟩
    have : (mapLookup (mapDelete c.items last.2.key) k).isSome :=
      mapLookup_isSome.mpr (hpk ▸ List.mem_map.mpr ⟨p, hp, rfl⟩)
    rw [habs2] at this
    exact Bool.noConfusion this
  · simp only [List.map_cons, List.nodup_cons]
    refine ⟨?_, hnd_drop⟩
    intro hid
    rcases List.mem_map.mp hid with ⟨p, hp, hpi⟩
    exact absurd hpi (Nat.ne_of_lt (hInv.ids_lt p (hdropmem p hp)))
  · intro p hp
    rcases List.mem_cons.mp hp with heq | htl
    · cases heq
      exact Nat.lt_succ_self _
    · exact Nat.lt_succ_of_lt (hInv.ids_lt p (hdropmem p htl))
  · intro k' i' h'
    simp only [hins, mapLookup] at h'
    by_cases hk' : k' = k
    · rw [if_pos hk'] at h'
      cases h'
      exact ⟨newVal, List.mem_cons_self _ _, hkey.trans hk'.symm⟩
    · rw [if_neg hk', mapLookup_mapDelete, if_neg hk', mapLookup_mapDelete] at h'
      by_cases hke : k' = last.2.key
      · rw [if_pos hke] at h'
        exact Option.noConfusion h'
      · rw [if_neg hke] at h'
        obtain ⟨e', hm', he'⟩ := hInv.map_node k' i' h'
        rw [← hsplit] at hm'
        rcases List.mem_append.mp hm' with hd | hl
        · exact ⟨e', List.mem_cons_of_mem _ hd, he'⟩
        · exfalso
          have hpe : (i', e') = last := List.mem_singleton.mp hl
          have : e' = last.2 := congrArg Prod.snd hpe
          rw [this] at he'
          exact hke he'.symm
  · intro i' e' hm'
    rcases List.mem_cons.mp hm' with heq | htl
    · cases heq
      simp only [hins, mapLookup, hkey, if_pos]
    · have hmem_l : (i', e') ∈ c.evictList := hdropmem _ htl
      have hold := hInv.node_map i' e' hmem_l
      have hne_k : e'.key ≠ k := by
        intro hk
        rw [hk, hlook] at hold
        exact Option.noConfusion hold
      have hne_el : e'.key ≠ last.2.key := by
        intro hk
        rw [hk, hlookel] at hold
        have hi' : i' = last.1 := (Option.some.injEq .. ▸ hold).symm ▸ rfl
        have : i' ∈ c.evictList.dropLast.map Prod.fst :=
          List.mem_map.mpr ⟨(i', e'), htl, rfl⟩
        rw [hi'] at this
        exact hlast_notin this
      simp only [hins, mapLookup, if_neg hne_k]
      rw [mapLookup_mapDelete, if_neg hne_k, mapLookup_mapDelete, if_neg hne_el]
      exact hold

theorem Set_Inv {c : Cache K V} (hInv : Inv c) (k : K) (v : V) (now : Int) :
    Inv (c.Set k v now) := by
  cases hlook : mapLookup c.items k with
  | some i =>
    obtain ⟨e0, hmem, _⟩ := hInv.map_node k i hlook
    have hfind : listFind c.evictList i = some e0 :=
      listFind_of_mem hInv.ids_nodup hmem
    have hfind' :
        listFind (listUpdate c.evictList i
            { key := k, value := v, expiredAt := now + c.ttl }) i =
          some { key := k, value := v, expiredAt := now + c.ttl } := by
      rw [listFind_listUpdate, hfind]
      rfl
    rw [Set_present_eq hlook, moveToFront_eq hfind', listRemove_listUpdate]
    exact Inv_promote hInv hlook rfl
  | none =>
    by_cases hcap : (c.evictList.length : Int) ≥ c.capacity
    · have hne : c.evictList ≠ [] := by
        intro h0
        rw [h0] at hcap
        simp only [List.length_nil, Nat.cast_zero, ge_iff_le] at hcap
        have := hInv.cap_pos
        omega
      obtain ⟨last, hlast⟩ : ∃ last, c.evictList.getLast? = some last := by
        cases hg : c.evictList.getLast? with
        | some p => exact ⟨p, rfl⟩
        | none => exact absurd (List.getLast?_eq_none_iff.mp hg) hne
      rw [Set_absent_evict_eq hlook hcap hlast]
      exact Inv_insert_evict hInv hlook hlast rfl
    · rw [Set_absent_noevict_eq hlook hcap]
      exact Inv_insert_noevict hInv hlook rfl hcap

theorem Get_Inv [Inhabited V] {c : Cache K V} (hInv : Inv c) (k : K)
    (now : Int) : Inv (c.Get k now).2.2 := by
  cases hlook : mapLookup c.items k with
  | none =>
    rw [Get_miss_eq hlook]
    exact hInv
  | some i =>
    cases hfind : listFind c.evictList i with
    | none =>
      rw [Get_dangling_eq hlook hfind]
      exact hInv
    | some val =>
      by_cases hexp : c.ttl ≠ 0 ∧ val.expired now
      · rw [Get_expired_eq hlook hfind hexp]
        exact hInv
      · rw [Get_hit_eq hlook hfind hexp, moveToFront_eq hfind]
        have hkey : val.key = k := by
          obtain ⟨e0, hmem0, hkey0⟩ := hInv.map_node k i hlook
          have he := mem_id_unique hInv.ids_nodup (listFind_mem hfind) hmem0
          rw [he, hkey0]
        exact Inv_promote hInv hlook hkey

theorem runOps_Inv [Inhabited V] {c : Cache K V} (hInv : Inv c)
    (ops : List (Op K V)) : Inv (runOps c ops) := by
  induction ops generalizing c with
  | nil => exact hInv
  | cons op rest ih =>
    cases op with
    | set k v now => exact ih (Set_Inv hInv k v now)
    | get k now => exact ih (Get_Inv hInv k now)

theorem applyOption_ttl_nonneg {o : cacheOptions} {opt : CacheOption}
    (hstd : StdOption opt) (h : 0 ≤ o.ttl) : 0 ≤ (applyOption o opt).ttl := by
  rcases hstd with rfl | ⟨n, rfl⟩ | ⟨d, rfl⟩
  · exact h
  · by_cases hn : n > 0
    · simp [applyOption, WithCapacity, hn, h]
    · simp [applyOption, WithCapacity, hn, h]
  · by_cases hd : d ≥ 0
    · simp [applyOption, WithTTL, hd]
    · simp [applyOption, WithTTL, hd, h]

theorem foldl_ttl_nonneg (opts : List CacheOption) :
    ∀ o : cacheOptions, (∀ x ∈ opts, StdOption x) → 0 ≤ o.ttl →
      0 ≤ (opts.foldl applyOption o).ttl := by
  induction opts with
  | nil =>
    intro o _ h
    exact h
  | cons opt rest ih =>
    intro o hstd h
    exact ih _ (fun x hx => hstd x (List.mem_cons_of_mem _ hx))
      (applyOption_ttl_nonneg (hstd opt (List.mem_cons_self _ _)) h)

theorem applyOptions_ttl_nonneg {opts : List CacheOption}
    (hstd : ∀ o ∈ opts, StdOption o) : 0 ≤ (applyOptions opts).ttl :=
  foldl_ttl_nonneg opts _ hstd (le_refl 0)

theorem New_err (K V : Type) [DecidableEq K] (opts : List CacheOption) :
    (New K V opts).2 = none := rfl

theorem Inv_new (K V : Type) [DecidableEq K] {opts : List CacheOption}
    (hstd : ∀ o ∈ opts, StdOption o) : Inv ((New K V opts).1) := by
  have httl : 0 ≤ (applyOptions opts).ttl := applyOptions_ttl_nonneg hstd
  refine
    { len_eq := rfl
      len_le := ?_
      cap_pos := ?_
      ttl_nonneg := ?_
      keys_nodup := List.nodup_nil
      ids_nodup := List.nodup_nil
      ids_lt := ?_
      map_node := ?_
      node_map := ?_ }
  · by_cases h : (applyOptions opts).capacity ≤ 0
    · simp [New, h, defaultSize]
    · simp [New, h]
      omega
  · by_cases h : (applyOptions opts).capacity ≤ 0
    · simp [New, h, defaultSize]
    · simp [New, h]
      omega
  · exact httl
  · intro p hp
    simp [New] at hp
  · intro k i h
    simp [New, mapLookup] at h
  · intro i e h
    simp [New] at h

theorem Set_ttl (c : Cache K V) (k : K) (v : V) (now : Int) :
    (c.Set k v now).ttl = c.ttl := by
  cases hlook : mapLookup c.items k with
  | some i => rw [Set_present_eq hlook]
  | none =>
    by_cases hcap : (c.evictList.length : Int) ≥ c.capacity
    · cases hlast : c.evictList.getLast? with
      | some last => rw [Set_absent_evict_eq hlook hcap hlast]
      | none => simp [Cache.Set, hlook, hcap, hlast]
    · rw [Set_absent_noevict_eq hlook hcap]

theorem Set_capacity (c : Cache K V) (k : K) (v : V) (now : Int) :
    (c.Set k v now).capacity = c.capacity := by
  cases hlook : mapLookup c.items k with
  | some i => rw [Set_present_eq hlook]
  | none =>
    by_cases hcap : (c.evictList.length : Int) ≥ c.capacity
    · cases hlast : c.evictList.getLast? with
      | some last => rw [Set_absent_evict_eq hlook hcap hlast]
      | none => simp [Cache.Set, hlook, hcap, hlast]
    · rw [Set_absent_noevict_eq hlook hcap]

theorem Set_head {c : Cache K V} (hInv : Inv c) (k : K) (v : V) (now : Int) :
    ∃ i, mapLookup (c.Set k v now).items k = some i ∧
      listFind (c.Set k v now).evictList i =
        some { key := k, value := v, expiredAt := now + c.ttl } := by
  cases hlook : mapLookup c.items k with
  | some i =>
    obtain ⟨e0, hmem, _⟩ := hInv.map_node k i hlook
    have hfind : listFind c.evictList i = some e0 :=
      listFind_of_mem hInv.ids_nodup hmem
    have hfind' :
        listFind (listUpdate c.evictList i
            { key := k, value := v, expiredAt := now + c.ttl }) i =
          some { key := k, value := v, expiredAt := now + c.ttl } := by
      rw [listFind_listUpdate, hfind]
      rfl
    rw [Set_present_eq hlook, moveToFront_eq hfind', listRemove_listUpdate]
    exact ⟨i, hlook, by simp [listFind]⟩
  | none =>
    by_cases hcap : (c.evictList.length : Int) ≥ c.capacity
    · have hne : c.evictList ≠ [] := by
        intro h0
        rw [h0] at hcap
        simp only [List.length_nil, Nat.cast_zero, ge_iff_le] at hcap
        have := hInv.cap_pos
        omega
      obtain ⟨last, hlast⟩ : ∃ last, c.evictList.getLast? = some last := by
        cases hg : c.evictList.getLast? with
        | some p => exact ⟨p, rfl⟩
        | none => exact absurd (List.getLast?_eq_none_iff.mp hg) hne
      rw [Set_absent_evict_eq hlook hcap hlast]
      exact ⟨c.nextId, by simp [mapInsert, mapLookup], by simp [listFind]⟩
    · rw [Set_absent_noevict_eq hlook hcap]
      exact ⟨c.nextId, by simp [mapInsert, mapLookup], by simp [listFind]⟩

theorem Set_present_items {c : Cache K V} {k : K} {i : Nat}
    (hlook : mapLookup c.items k = some i) (v : V) (now : Int) :
    (c.Set k v now).items = c.items := by
  rw [Set_present_eq hlook]

end InvLemmas

section Claims

variable {K V : Type}

/-- C1: after any sequence of completed `Set` and `Get` operations on a cache
built by `New` from the package's own options, the index and the recency list
have the same size, that size is at most the capacity, and the keys of the
index are exactly the keys held by nodes of the recency list, each index
binding pointing at a node that stores that very key. -/
theorem C1_cache_invariant (K V : Type) [DecidableEq K] [Inhabited V]
    (opts : List CacheOption) (hstd : ∀ o ∈ opts, StdOption o)
    (ops : List (Op K V)) :
    (runOps ((New K V opts).1) ops).items.length
        = (runOps ((New K V opts).1) ops).evictList.length ∧
    ((runOps ((New K V opts).1) ops).evictList.length : Int)
        ≤ (runOps ((New K V opts).1) ops).capacity ∧
    Bijection (runOps ((New K V opts).1) ops) := by
  have hInv := runOps_Inv (Inv_new K V hstd) ops
  refine ⟨hInv.len_eq, hInv.len_le, ?_, hInv.map_node⟩
  intro k
  constructor
  · intro hs
    obtain ⟨i, hi⟩ := Option.isSome_iff_exists.mp hs
    obtain ⟨e, hmem, hkey⟩ := hInv.map_node k i hi
    exact ⟨(i, e), hmem, hkey⟩
  · rintro ⟨p, hp, hkey⟩
    have hn := hInv.node_map p.1 p.2 (by rw [Prod.mk.eta]; exact hp)
    rw [hkey] at hn
    rw [hn]
    rfl

theorem C1_cache_invariant_witness :
    (∀ o ∈ ([] : List CacheOption), StdOption o) ∧
    ((runOps ((New Nat Nat []).1) [Op.set 1 2 0]).items.length
        = (runOps ((New Nat Nat []).1) [Op.set 1 2 0]).evictList.length ∧
     ((runOps ((New Nat Nat []).1) [Op.set 1 2 0]).evictList.length : Int)
        ≤ (runOps ((New Nat Nat []).1) [Op.set 1 2 0]).capacity ∧
     Bijection (runOps ((New Nat Nat []).1) [Op.set 1 2 0])) :=
  ⟨fun o ho => absurd ho (List.not_mem_nil o),
   C1_cache_invariant Nat Nat []
     (fun o ho => absurd ho (List.not_mem_nil o)) [Op.set 1 2 0]⟩

/-- C4: on a cache whose ttl is `d ≠ 0`, after `Set k v` at time `t0` the
stored expiry is `t0 + d`; a `Get k` at time `t` returns `(v, true)` when
`t0 + d` is not strictly before `t` (in particular at `t = t0 + d` itself),
and `(zero-value, false)` when `t0 + d` is strictly before `t`. -/
theorem C4_ttl_expiry (K V : Type) [DecidableEq K] [Inhabited V]
    (c : Cache K V) (hInv : Inv c) (httl : c.ttl ≠ 0) (k : K) (v : V)
    (t0 t : Int) :
    (¬ t0 + c.ttl < t →
      ((c.Set k v t0).Get k t).1 = v ∧ ((c.Set k v t0).Get k t).2.1 = true) ∧
    (t0 + c.ttl < t →
      ((c.Set k v t0).Get k t).1 = default ∧
        ((c.Set k v t0).Get k t).2.1 = false) := by
  obtain ⟨i, hlook, hfind⟩ := Set_head hInv k v t0
  have httl' : (c.Set k v t0).ttl = c.ttl := Set_ttl c k v t0
  constructor
  · intro hle
    have hcond : ¬ ((c.Set k v t0).ttl ≠ 0 ∧
        cached.expired { key := k, value := v, expiredAt := t0 + c.ttl } t) := by
      intro hco
      exact hle (by simpa [cached.expired] using hco.2)
    rw [Get_hit_eq hlook hfind hcond]
    exact ⟨rfl, rfl⟩
  · intro hlt
    have hcond : (c.Set k v t0).ttl ≠ 0 ∧
        cached.expired { key := k, value := v, expiredAt := t0 + c.ttl } t :=
      ⟨by rwa [httl'], by simpa [cached.expired] using hlt⟩
    rw [Get_expired_eq hlook hfind hcond]
    exact ⟨rfl, rfl⟩

theorem C4_ttl_expiry_witness :
    Inv ((New Nat Nat [WithTTL 5]).1) ∧
    ((New Nat Nat [WithTTL 5]).1).ttl ≠ 0 ∧
    ((¬ (0 : Int) + ((New Nat Nat [WithTTL 5]).1).ttl < 5 →
      ((((New Nat Nat [WithTTL 5]).1).Set 1 10 0).Get 1 5).1 = 10 ∧
        ((((New Nat Nat [WithTTL 5]).1).Set 1 10 0).Get 1 5).2.1 = true) ∧
     ((0 : Int) + ((New Nat Nat [WithTTL 5]).1).ttl < 5 →
      ((((New Nat Nat [WithTTL 5]).1).Set 1 10 0).Get 1 5).1 = default ∧
        ((((New Nat Nat [WithTTL 5]).1).Set 1 10 0).Get 1 5).2.1 = false)) := by
  have hstd : ∀ o ∈ [WithTTL 5], StdOption o := by
    intro o ho
    rw [List.mem_singleton] at ho
    subst ho
    exact Or.inr (Or.inr ⟨5, rfl⟩)
  exact ⟨Inv_new Nat Nat hstd, by decide,
    C4_ttl_expiry Nat Nat _ (Inv_new Nat Nat hstd) (by decide) 1 10 0 5⟩

/-- C5: if the cache's ttl is `0`, a `Get` on a present key never treats the
entry as expired: whatever the stored `expiredAt` and the current time, it
returns the stored value with `presented = true` (so only capacity eviction
can make the key absent). -/
theorem C5_ttl_disabled (K V : Type) [DecidableEq K] [Inhabited V]
    (c : Cache K V) (httl : c.ttl = 0) (k : K) (i : Nat) (val : cached K V)
    (now : Int) (hlook : mapLookup c.items k = some i)
    (hfind : listFind c.evictList i = some val) :
    c.Get k now =
      (val.value, true, { c with evictList := moveToFront c.evictList i }) :=
  Get_hit_eq hlook hfind (fun h => h.1 httl)

theorem C5_ttl_disabled_witness :
    ((New Nat Nat []).1.Set 1 10 0).ttl = 0 ∧
    mapLookup ((New Nat Nat []).1.Set 1 10 0).items 1 = some 0 ∧
    listFind ((New Nat Nat []).1.Set 1 10 0).evictList 0 =
      some { key := 1, value := 10, expiredAt := 0 } ∧
    ((New Nat Nat []).1.Set 1 10 0).Get 1 999999 =
      (10, true,
        { (New Nat Nat []).1.Set 1 10 0 with
            evictList :=
              moveToFront ((New Nat Nat []).1.Set 1 10 0).evictList 0 }) :=
  ⟨by decide, by decide, by decide,
   C5_ttl_disabled Nat Nat _ (by decide) 1 0
     { key := 1, value := 10, expiredAt := 0 } 999999 (by decide) (by decide)⟩

/-- C6: a `Get` that hits an expired entry (ttl nonzero, stored `expiredAt`
strictly before `now`) returns the zero value with `presented = false` and
returns the cache state completely unchanged — no removal, no move-to-front,
no entry mutation. -/
theorem C6_expired_hit_frame (K V : Type) [DecidableEq K] [Inhabited V]
    (c : Cache K V) (k : K) (i : Nat) (val : cached K V) (now : Int)
    (httl : c.ttl ≠ 0) (hlook : mapLookup c.items k = some i)
    (hfind : listFind c.evictList i = some val) (hexp : val.expiredAt < now) :
    c.Get k now = (default, false, c) :=
  Get_expired_eq hlook hfind ⟨httl, by simp [cached.expired, hexp]⟩

theorem C6_expired_hit_frame_witness :
    ((New Nat Nat [WithTTL 5]).1.Set 1 10 0).ttl ≠ 0 ∧
    mapLookup ((New Nat Nat [WithTTL 5]).1.Set 1 10 0).items 1 = some 0 ∧
    listFind ((New Nat Nat [WithTTL 5]).1.Set 1 10 0).evictList 0 =
      some { key := 1, value := 10, expiredAt := 5 } ∧
    ((5 : Int) < 6) ∧
    ((New Nat Nat [WithTTL 5]).1.Set 1 10 0).Get 1 6 =
      (default, false, (New Nat Nat [WithTTL 5]).1.Set 1 10 0) :=
  ⟨by decide, by decide, by decide, by decide,
   C6_expired_hit_frame Nat Nat _ 1 0
     { key := 1, value := 10, expiredAt := 5 } 6 (by decide) (by decide)
     (by decide) (by decide)⟩

/-- C10: a `Get` on a key absent from the index returns the zero value with
`presented = false` and returns the cache state completely unchanged. -/
theorem C10_miss_frame (K V : Type) [DecidableEq K] [Inhabited V]
    (c : Cache K V) (k : K) (now : Int)
    (habs : mapLookup c.items k = none) :
    c.Get k now = (default, false, c) :=
  Get_miss_eq habs now

theorem C10_miss_frame_witness :
    mapLookup ((New Nat Nat []).1.Set 1 10 0).items 7 = none ∧
    ((New Nat Nat []).1.Set 1 10 0).Get 7 0 =
      (default, false, (New Nat Nat []).1.Set 1 10 0) :=
  ⟨by decide, C10_miss_frame Nat Nat _ 7 0 (by decide)⟩

/-- C7: `Set k v1; Set k v2; Get k` returns `(v2, true)`; the sizes of the
index and recency list after the second `Set` equal those after the first
(one slot per key); and a `Set` on an already-present key leaves the index
untouched, so it never evicts any other key, even at full capacity. -/
theorem C7_overwrite (K V : Type) [DecidableEq K] [Inhabited V]
    (c : Cache K V) (hInv : Inv c) (k : K) (v1 v2 : V) (now : Int) :
    (((c.Set k v1 now).Set k v2 now).Get k now).1 = v2 ∧
    (((c.Set k v1 now).Set k v2 now).Get k now).2.1 = true ∧
    ((c.Set k v1 now).Set k v2 now).items.length
        = (c.Set k v1 now).items.length ∧
    ((c.Set k v1 now).Set k v2 now).evictList.length
        = (c.Set k v1 now).evictList.length ∧
    (∀ (v : V) (i : Nat), mapLookup c.items k = some i →
      (c.Set k v now).items = c.items) := by
  have hInv1 := Set_Inv hInv k v1 now
  obtain ⟨i1, hlook1, hfind1⟩ := Set_head hInv k v1 now
  have httl1 : (c.Set k v1 now).ttl = c.ttl := Set_ttl c k v1 now
  obtain ⟨i2, hlook2, hfind2⟩ := Set_head hInv1 k v2 now
  have hcond : ¬ ((((c.Set k v1 now).Set k v2 now)).ttl ≠ 0 ∧
      cached.expired
        { key := k, value := v2, expiredAt := now + (c.Set k v1 now).ttl }
        now) := by
    intro hco
    have h2 : now + (c.Set k v1 now).ttl < now := by
      simpa [cached.expired] using hco.2
    rw [httl1] at h2
    have := hInv.ttl_nonneg
    omega
  rw [Get_hit_eq hlook2 hfind2 hcond]
  refine ⟨rfl, rfl, ?_, ?_, fun v i h => Set_present_items h v now⟩
  · rw [Set_present_items hlook1 v2 now]
  · rw [Set_present_eq hlook1]
    have hmem1 : (i1, (⟨k, v1, now + c.ttl⟩ : cached K V))
        ∈ (c.Set k v1 now).evictList :=
      listFind_mem hfind1
    have hfind1' :
        listFind (listUpdate (c.Set k v1 now).evictList i1
            { key := k, value := v2,
              expiredAt := now + (c.Set k v1 now).ttl }) i1 =
          some { key := k, value := v2,
                 expiredAt := now + (c.Set k v1 now).ttl } := by
      rw [listFind_listUpdate, hfind1]
      rfl
    rw [moveToFront_eq hfind1', listRemove_listUpdate]
    have hrem := listRemove_length hmem1 hInv1.ids_nodup
    simp only [List.length_cons]
    omega

theorem C7_overwrite_witness :
    Inv ((New Nat Nat []).1) ∧
    (((((New Nat Nat []).1).Set 1 10 0).Set 1 20 0).Get 1 0).1 = 20 ∧
    (((((New Nat Nat []).1).Set 1 10 0).Set 1 20 0).Get 1 0).2.1 = true ∧
    ((((New Nat Nat []).1).Set 1 10 0).Set 1 20 0).items.length
        = (((New Nat Nat []).1).Set 1 10 0).items.length ∧
    ((((New Nat Nat []).1).Set 1 10 0).Set 1 20 0).evictList.length
        = (((New Nat Nat []).1).Set 1 10 0).evictList.length ∧
    (∀ (v i : Nat), mapLookup ((New Nat Nat []).1).items 1 = some i →
      (((New Nat Nat []).1).Set 1 v 0).items = ((New Nat Nat []).1).items) := by
  have hstd : ∀ o ∈ ([] : List CacheOption), StdOption o :=
    fun o ho => absurd ho (List.not_mem_nil o)
  exact ⟨Inv_new Nat Nat hstd,
    C7_overwrite Nat Nat _ (Inv_new Nat Nat hstd) 1 10 20 0⟩

/-- C8: a `Set` on a key whose entry is already expired replaces the entry in
place — same node identifier, index untouched — with the new value and fresh
expiry `now + ttl`, and a `Get` before the new expiry returns the new value
with `presented = true`: `Set` resurrects an expired-but-unread entry. -/
theorem C8_set_resurrects (K V : Type) [DecidableEq K] [Inhabited V]
    (c : Cache K V) (_hInv : Inv c) (k : K) (v : V) (now t : Int) (i : Nat)
    (e : cached K V) (_httl : c.ttl ≠ 0) (hlook : mapLookup c.items k = some i)
    (hfind : listFind c.evictList i = some e) (_hexp : e.expiredAt < now)
    (hfresh : ¬ now + c.ttl < t) :
    mapLookup (c.Set k v now).items k = some i ∧
    listFind (c.Set k v now).evictList i =
      some { key := k, value := v, expiredAt := now + c.ttl } ∧
    ((c.Set k v now).Get k t).1 = v ∧
    ((c.Set k v now).Get k t).2.1 = true := by
  have hitems : (c.Set k v now).items = c.items := Set_present_items hlook v now
  have hfind' :
      listFind (listUpdate c.evictList i
          { key := k, value := v, expiredAt := now + c.ttl }) i =
        some { key := k, value := v, expiredAt := now + c.ttl } := by
    rw [listFind_listUpdate, hfind]
    rfl
  have hlook' : mapLookup (c.Set k v now).items k = some i := by
    rw [hitems]
    exact hlook
  have hfind'' : listFind (c.Set k v now).evictList i =
      some { key := k, value := v, expiredAt := now + c.ttl } := by
    rw [Set_present_eq hlook, moveToFront_eq hfind', listRemove_listUpdate]
    simp [listFind]
  have hcond : ¬ ((c.Set k v now).ttl ≠ 0 ∧
      cached.expired { key := k, value := v, expiredAt := now + c.ttl } t) := by
    intro hco
    exact hfresh (by simpa [cached.expired] using hco.2)
  rw [Get_hit_eq hlook' hfind'' hcond]
  exact ⟨hlook', hfind'', rfl, rfl⟩

theorem C8_set_resurrects_witness :
    Inv ((New Nat Nat [WithTTL 5]).1.Set 1 10 0) ∧
    ((New Nat Nat [WithTTL 5]).1.Set 1 10 0).ttl ≠ 0 ∧
    mapLookup ((New Nat Nat [WithTTL 5]).1.Set 1 10 0).items 1 = some 0 ∧
    listFind ((New Nat Nat [WithTTL 5]).1.Set 1 10 0).evictList 0 =
      some { key := 1, value := 10, expiredAt := 5 } ∧
    ((5 : Int) < 7) ∧
    ¬ ((7 : Int) + ((New Nat Nat [WithTTL 5]).1.Set 1 10 0).ttl < 8) ∧
    (mapLookup (((New Nat Nat [WithTTL 5]).1.Set 1 10 0).Set 1 20 7).items 1
        = some 0 ∧
     listFind (((New Nat Nat [WithTTL 5]).1.Set 1 10 0).Set 1 20 7).evictList 0
        = some { key := 1, value := 20,
                 expiredAt := 7 + ((New Nat Nat [WithTTL 5]).1.Set 1 10 0).ttl } ∧
     ((((New Nat Nat [WithTTL 5]).1.Set 1 10 0).Set 1 20 7).Get 1 8).1 = 20 ∧
     ((((New Nat Nat [WithTTL 5]).1.Set 1 10 0).Set 1 20 7).Get 1 8).2.1
        = true) := by
  have hstd : ∀ o ∈ [WithTTL 5], StdOption o := by
    intro o ho
    rw [List.mem_singleton] at ho
    subst ho
    exact Or.inr (Or.inr ⟨5, rfl⟩)
  have hInv1 : Inv ((New Nat Nat [WithTTL 5]).1.Set 1 10 0) :=
    Set_Inv (Inv_new Nat Nat hstd) 1 10 0
  exact ⟨hInv1, by decide, by decide, by decide, by decide, by decide,
    C8_set_resurrects Nat Nat _ hInv1 1 20 7 8 0
      { key := 1, value := 10, expiredAt := 5 } (by decide) (by decide)
      (by decide) (by decide) (by decide)⟩

theorem foldl_invalid_caps (ns : List Int) :
    ∀ o : cacheOptions, (∀ x ∈ ns, x ≤ 0) →
      (ns.map WithCapacity).foldl applyOption o = o := by
  induction ns with
  | nil =>
    intro o _
    rfl
  | cons n rest ih =>
    intro o h
    have hn : ¬ n > 0 := not_lt.mpr (h n (List.mem_cons_self _ _))
    have hstep : applyOption o (WithCapacity n) = o := by
      simp [applyOption, WithCapacity, hn]
    rw [List.map_cons, List.foldl_cons, hstep]
    exact ih o (fun x hx => h x (List.mem_cons_of_mem _ hx))

theorem foldl_invalid_ttls (ds : List Int) :
    ∀ o : cacheOptions, (∀ x ∈ ds, x < 0) →
      (ds.map WithTTL).foldl applyOption o = o := by
  induction ds with
  | nil =>
    intro o _
    rfl
  | cons d rest ih =>
    intro o h
    have hd : ¬ d ≥ 0 := not_le.mpr (h d (List.mem_cons_self _ _))
    have hstep : applyOption o (WithTTL d) = o := by
      simp [applyOption, WithTTL, hd]
    rw [List.map_cons, List.foldl_cons, hstep]
    exact ih o (fun x hx => h x (List.mem_cons_of_mem _ hx))

/-- C9: `New` always returns a nil error; a `WithCapacity` with a non-positive
argument and a `WithTTL` with a negative argument leave the configuration
unchanged; nil options are no-ops; a cache built from only invalid capacity
options gets the default capacity 128, and one built from only invalid TTL
options gets ttl 0 (disabled). -/
theorem C9_construction (K V : Type) [DecidableEq K]
    (opts : List CacheOption) (o : cacheOptions) (n d : Int)
    (hn : n ≤ 0) (hd : d < 0) (ns ds : List Int)
    (hns : ∀ x ∈ ns, x ≤ 0) (hds : ∀ x ∈ ds, x < 0) :
    (New K V opts).2 = none ∧
    applyOption o (WithCapacity n) = o ∧
    applyOption o (WithTTL d) = o ∧
    applyOption o none = o ∧
    ((New K V (ns.map WithCapacity)).1).capacity = 128 ∧
    ((New K V (ds.map WithTTL)).1).ttl = 0 := by
  refine ⟨rfl, ?_, ?_, rfl, ?_, ?_⟩
  · simp [applyOption, WithCapacity, not_lt.mpr hn]
  · simp [applyOption, WithTTL, not_le.mpr hd]
  · have h : applyOptions (ns.map WithCapacity) = { capacity := 0, ttl := 0 } :=
      foldl_invalid_caps ns _ hns
    simp [New, h, defaultSize]
  · have h : applyOptions (ds.map WithTTL) = { capacity := 0, ttl := 0 } :=
      foldl_invalid_ttls ds _ hds
    simp [New, h]

theorem C9_construction_witness :
    ((-5 : Int) ≤ 0) ∧ ((-1 : Int) < 0) ∧
    (∀ x ∈ [(-5 : Int), 0], x ≤ 0) ∧ (∀ x ∈ [(-1 : Int)], x < 0) ∧
    ((New Nat Nat [WithCapacity (-5), none, WithTTL (-1)]).2 = none ∧
     applyOption ⟨7, 3⟩ (WithCapacity (-5)) = ⟨7, 3⟩ ∧
     applyOption ⟨7, 3⟩ (WithTTL (-1)) = ⟨7, 3⟩ ∧
     applyOption ⟨7, 3⟩ none = ⟨7, 3⟩ ∧
     ((New Nat Nat ([(-5 : Int), 0].map WithCapacity)).1).capacity = 128 ∧
     ((New Nat Nat ([(-1 : Int)].map WithTTL)).1).ttl = 0) :=
  ⟨by decide, by decide, by decide, by decide,
   C9_construction Nat Nat [WithCapacity (-5), none, WithTTL (-1)] ⟨7, 3⟩
     (-5) (-1) (by decide) (by decide) [-5, 0] [-1] (by decide) (by decide)⟩

/-- C3: a successful `Get` counts as a use: with capacity 2, after
`Set a; Set b; Get a; Set c` (distinct keys), `b` has been evicted
(`Get b` misses) while `a` and `c` are still present. -/
theorem C3_recency_refresh (K V : Type) [DecidableEq K] [Inhabited V]
    (a b c : K) (hab : a ≠ b) (hac : a ≠ c) (hbc : b ≠ c)
    (va vb vc : V) (t1 t2 t3 t4 t5 t6 t7 : Int) :
    ((((((New K V [WithCapacity 2]).1.Set a va t1).Set b vb t2).Get a
          t3).2.2.Set c vc t4).Get b t5).2.1 = false ∧
    ((((((New K V [WithCapacity 2]).1.Set a va t1).Set b vb t2).Get a
          t3).2.2.Set c vc t4).Get a t6).2.1 = true ∧
    ((((((New K V [WithCapacity 2]).1.Set a va t1).Set b vb t2).Get a
          t3).2.2.Set c vc t4).Get c t7).2.1 = true := by
  have h0 : (New K V [WithCapacity 2]).1 =
      (⟨[], [], 2, 0, 0⟩ : Cache K V) := rfl
  have e1 : mapLookup ((⟨[], [], 2, 0, 0⟩ : Cache K V)).items a = none := rfl
  have f1 : ¬ ((((⟨[], [], 2, 0, 0⟩ : Cache K V)).evictList.length : Int)
      ≥ ((⟨[], [], 2, 0, 0⟩ : Cache K V)).capacity) := by norm_num
  have h1 : (New K V [WithCapacity 2]).1.Set a va t1 =
      (⟨[(a, 0)], [(0, ⟨a, va, t1 + 0⟩)], 2, 0, 1⟩ : Cache K V) := by
    rw [h0, Set_absent_noevict_eq e1 f1]
    rfl
  have e2 : mapLookup ((⟨[(a, 0)], [(0, ⟨a, va, t1 + 0⟩)], 2, 0, 1⟩ :
      Cache K V)).items b = none := by
    simp [mapLookup, Ne.symm hab]
  have f2 : ¬ ((((⟨[(a, 0)], [(0, ⟨a, va, t1 + 0⟩)], 2, 0, 1⟩ :
      Cache K V)).evictList.length : Int)
      ≥ ((⟨[(a, 0)], [(0, ⟨a, va, t1 + 0⟩)], 2, 0, 1⟩ :
        Cache K V)).capacity) := by norm_num
  have h2 : ((New K V [WithCapacity 2]).1.Set a va t1).Set b vb t2 =
      (⟨[(b, 1), (a, 0)], [(1, ⟨b, vb, t2 + 0⟩), (0, ⟨a, va, t1 + 0⟩)],
        2, 0, 2⟩ : Cache K V) := by
    rw [h1, Set_absent_noevict_eq e2 f2]
    simp [mapInsert, mapDelete, hab]
  have e3 : mapLookup ((⟨[(b, 1), (a, 0)],
      [(1, ⟨b, vb, t2 + 0⟩), (0, ⟨a, va, t1 + 0⟩)], 2, 0, 2⟩ :
      Cache K V)).items a = some 0 := by
    simp [mapLookup, hab]
  have f3 : listFind ((⟨[(b, 1), (a, 0)],
      [(1, ⟨b, vb, t2 + 0⟩), (0, ⟨a, va, t1 + 0⟩)], 2, 0, 2⟩ :
      Cache K V)).evictList 0 = some ⟨a, va, t1 + 0⟩ := rfl
  have h3 : ((((New K V [WithCapacity 2]).1.Set a va t1).Set b vb t2).Get a
      t3).2.2 =
      (⟨[(b, 1), (a, 0)], [(0, ⟨a, va, t1 + 0⟩), (1, ⟨b, vb, t2 + 0⟩)],
        2, 0, 2⟩ : Cache K V) := by
    rw [h2, Get_hit_eq e3 f3 (fun h => h.1 rfl)]
    rfl
  have e4 : mapLookup ((⟨[(b, 1), (a, 0)],
      [(0, ⟨a, va, t1 + 0⟩), (1, ⟨b, vb, t2 + 0⟩)], 2, 0, 2⟩ :
      Cache K V)).items c = none := by
    simp [mapLookup, Ne.symm hbc, Ne.symm hac]
  have f4 : (((⟨[(b, 1), (a, 0)],
      [(0, ⟨a, va, t1 + 0⟩), (1, ⟨b, vb, t2 + 0⟩)], 2, 0, 2⟩ :
      Cache K V)).evictList.length : Int)
      ≥ ((⟨[(b, 1), (a, 0)],
        [(0, ⟨a, va, t1 + 0⟩), (1, ⟨b, vb, t2 + 0⟩)], 2, 0, 2⟩ :
        Cache K V)).capacity := by norm_num
  have g4 : ((⟨[(b, 1), (a, 0)],
      [(0, ⟨a, va, t1 + 0⟩), (1, ⟨b, vb, t2 + 0⟩)], 2, 0, 2⟩ :
      Cache K V)).evictList.getLast? = some (1, ⟨b, vb, t2 + 0⟩) := rfl
  have h4 : ((((New K V [WithCapacity 2]).1.Set a va t1).Set b vb t2).Get a
      t3).2.2.Set c vc t4 =
      (⟨[(c, 2), (a, 0)], [(2, ⟨c, vc, t4 + 0⟩), (0, ⟨a, va, t1 + 0⟩)],
        2, 0, 3⟩ : Cache K V) := by
    rw [h3, Set_absent_evict_eq e4 f4 g4]
    simp [mapInsert, mapDelete, hab, hac]
  have e5 : mapLookup ((⟨[(c, 2), (a, 0)],
      [(2, ⟨c, vc, t4 + 0⟩), (0, ⟨a, va, t1 + 0⟩)], 2, 0, 3⟩ :
      Cache K V)).items b = none := by
    simp [mapLookup, hbc, Ne.symm hab]
  have e6 : mapLookup ((⟨[(c, 2), (a, 0)],
      [(2, ⟨c, vc, t4 + 0⟩), (0, ⟨a, va, t1 + 0⟩)], 2, 0, 3⟩ :
      Cache K V)).items a = some 0 := by
    simp [mapLookup, hac]
  have f6 : listFind ((⟨[(c, 2), (a, 0)],
      [(2, ⟨c, vc, t4 + 0⟩), (0, ⟨a, va, t1 + 0⟩)], 2, 0, 3⟩ :
      Cache K V)).evictList 0 = some ⟨a, va, t1 + 0⟩ := rfl
  have e7 : mapLookup ((⟨[(c, 2), (a, 0)],
      [(2, ⟨c, vc, t4 + 0⟩), (0, ⟨a, va, t1 + 0⟩)], 2, 0, 3⟩ :
      Cache K V)).items c = some 2 := by
    simp [mapLookup]
  have f7 : listFind ((⟨[(c, 2), (a, 0)],
      [(2, ⟨c, vc, t4 + 0⟩), (0, ⟨a, va, t1 + 0⟩)], 2, 0, 3⟩ :
      Cache K V)).evictList 2 = some ⟨c, vc, t4 + 0⟩ := rfl
  refine ⟨?_, ?_, ?_⟩
  · rw [h4, Get_miss_eq e5]
  · rw [h4, Get_hit_eq e6 f6 (fun h => h.1 rfl)]
  · rw [h4, Get_hit_eq e7 f7 (fun h => h.1 rfl)]

theorem C3_recency_refresh_witness :
    ((1 : Nat) ≠ 2) ∧ ((1 : Nat) ≠ 3) ∧ ((2 : Nat) ≠ 3) ∧
    (((((((New Nat Nat [WithCapacity 2]).1.Set 1 10 0).Set 2 20 1).Get 1
          2).2.2.Set 3 30 3).Get 2 4).2.1 = false ∧
     ((((((New Nat Nat [WithCapacity 2]).1.Set 1 10 0).Set 2 20 1).Get 1
          2).2.2.Set 3 30 3).Get 1 5).2.1 = true ∧
     ((((((New Nat Nat [WithCapacity 2]).1.Set 1 10 0).Set 2 20 1).Get 1
          2).2.2.Set 3 30 3).Get 3 6).2.1 = true) :=
  ⟨by decide, by decide, by decide,
   C3_recency_refresh Nat Nat 1 2 3 (by decide) (by decide) (by decide)
     10 20 30 0 1 2 3 4 5 6⟩

theorem Inv_fresh [DecidableEq K] (cap ttl : Int) (hcap : 0 < cap)
    (httl : 0 ≤ ttl) : Inv (⟨[], [], cap, ttl, 0⟩ : Cache K V) := by
  refine
    { len_eq := rfl
      len_le := by
        simp only [List.length_nil, Nat.cast_zero]
        omega
      cap_pos := hcap
      ttl_nonneg := httl
      keys_nodup := List.nodup_nil
      ids_nodup := List.nodup_nil
      ids_lt := ?_
      map_node := ?_
      node_map := ?_ }
  · intro p hp
    simp at hp
  · intro k i h
    simp [mapLookup] at h
  · intro i e h
    simp at h

theorem foldl_Set_Inv [DecidableEq K] [Inhabited V] (v : V) (now : Int)
    (ks : List K) :
    ∀ {c : Cache K V}, Inv c →
      Inv (ks.foldl (fun s k => s.Set k v now) c) := by
  induction ks with
  | nil =>
    intro c h
    exact h
  | cons k rest ih =>
    intro c h
    rw [List.foldl_cons]
    exact ih (Set_Inv h k v now)

theorem foldl_Set_fresh [DecidableEq K] [Inhabited V] (cap ttl : Int)
    (v : V) (now : Int) :
    ∀ ks : List K, ks.Nodup → ((ks.length : Int) ≤ cap) →
      (ks.foldl (fun s k => s.Set k v now)
        (⟨[], [], cap, ttl, 0⟩ : Cache K V)).capacity = cap ∧
      (ks.foldl (fun s k => s.Set k v now)
        (⟨[], [], cap, ttl, 0⟩ : Cache K V)).ttl = ttl ∧
      (ks.foldl (fun s k => s.Set k v now)
        (⟨[], [], cap, ttl, 0⟩ : Cache K V)).evictList.map
          (fun p => p.2.key) = ks.reverse ∧
      (ks.foldl (fun s k => s.Set k v now)
        (⟨[], [], cap, ttl, 0⟩ : Cache K V)).evictList.length = ks.length ∧
      (∀ k', (mapLookup (ks.foldl (fun s k => s.Set k v now)
        (⟨[], [], cap, ttl, 0⟩ : Cache K V)).items k').isSome ↔ k' ∈ ks) := by
  intro ks
  induction ks using List.reverseRecOn with
  | nil =>
    intro _ _
    refine ⟨rfl, rfl, rfl, rfl, ?_⟩
    intro k'
    simp [mapLookup]
  | append_singleton ks k ih =>
    intro hnd hlen
    obtain ⟨hnd1, -, hdisj⟩ := List.nodup_append.mp hnd
    have hk_not : k ∉ ks := fun hk => hdisj hk (List.mem_singleton_self k)
    have hlen1 : ((ks.length : Int) ≤ cap) := by
      rw [List.length_append] at hlen
      push_cast at hlen ⊢
      omega
    obtain ⟨hcap', httl', hmap', hlen', hlook'⟩ := ih hnd1 hlen1
    have hlookk : mapLookup (ks.foldl (fun s k => s.Set k v now)
        (⟨[], [], cap, ttl, 0⟩ : Cache K V)).items k = none :=
      Option.not_isSome_iff_eq_none.mp (fun hs => hk_not ((hlook' k).mp hs))
    have hcapc : ¬ (((ks.foldl (fun s k => s.Set k v now)
        (⟨[], [], cap, ttl, 0⟩ : Cache K V)).evictList.length : Int)
        ≥ (ks.foldl (fun s k => s.Set k v now)
          (⟨[], [], cap, ttl, 0⟩ : Cache K V)).capacity) := by
      rw [hlen', hcap']
      simp only [List.length_append, List.length_singleton] at hlen
      push_cast at hlen ⊢
      omega
    rw [List.foldl_append, List.foldl_cons, List.foldl_nil,
      Set_absent_noevict_eq hlookk hcapc]
    refine ⟨hcap', httl', ?_, ?_, ?_⟩
    · simp only [List.map_cons, hmap', List.reverse_append, List.reverse_cons,
        List.reverse_nil, List.nil_append, List.singleton_append]
    · simp [hlen']
    · intro k'
      by_cases hk' : k' = k
      · subst hk'
        simp [mapInsert, mapLookup]
      · simp only [mapInsert, mapLookup]
        rw [if_neg hk', mapLookup_mapDelete, if_neg hk', hlook' k']
        simp [List.mem_append, hk']

/-- C2: for capacity `N ≥ 1` and `N+1` pairwise-distinct keys
`k1 :: rest` inserted in order by `Set` into a fresh cache of capacity `N`
with no intervening `Get`, afterwards `Get k1` reports not found while
`Get k` reports found for every `k` in `rest`. -/
theorem C2_lru_eviction (K V : Type) [DecidableEq K] [Inhabited V]
    (N : Nat) (hN : 1 ≤ N) (k1 : K) (rest : List K)
    (hnd : (k1 :: rest).Nodup) (hlen : rest.length = N)
    (v : V) (now tg : Int) :
    (((k1 :: rest).foldl (fun s k => s.Set k v now)
        ((New K V [WithCapacity (N : Int)]).1)).Get k1 tg).2.1 = false ∧
    ∀ k ∈ rest, (((k1 :: rest).foldl (fun s k => s.Set k v now)
        ((New K V [WithCapacity (N : Int)]).1)).Get k tg).2.1 = true := by
  have hNpos : (0 : Int) < (N : Int) := by exact_mod_cast hN
  have hfresh : (New K V [WithCapacity (N : Int)]).1 =
      (⟨[], [], (N : Int), 0, 0⟩ : Cache K V) := by
    simp [New, applyOptions, applyOption, WithCapacity, hNpos,
      not_le.mpr hNpos]
  rw [hfresh]
  obtain ⟨mid, klast, rfl⟩ : ∃ L b, rest = L ++ [b] := by
    rcases List.eq_nil_or_concat rest with h | ⟨L, b, h⟩
    · subst h
      simp at hlen
      omega
    · exact ⟨L, b, by simpa [List.concat_eq_append] using h⟩
  have hnd' : ((k1 :: mid) ++ [klast]).Nodup := by
    rwa [List.cons_append]
  obtain ⟨hnd0, -, hdisj⟩ := List.nodup_append.mp hnd'
  have hklast_not : klast ∉ k1 :: mid :=
    fun hk => hdisj hk (List.mem_singleton_self _)
  have hlen0 : (((k1 :: mid).length : Int) ≤ (N : Int)) := by
    simp only [List.length_append, List.length_singleton] at hlen
    simp only [List.length_cons]
    push_cast
    omega
  obtain ⟨hcap0, httl0, hmap0, hlenl0, hlook0⟩ :=
    foldl_Set_fresh (N : Int) 0 v now (k1 :: mid) hnd0 hlen0
  have hsplit : (k1 :: (mid ++ [klast])).foldl (fun s k => s.Set k v now)
      (⟨[], [], (N : Int), 0, 0⟩ : Cache K V) =
      ((k1 :: mid).foldl (fun s k => s.Set k v now)
        (⟨[], [], (N : Int), 0, 0⟩ : Cache K V)).Set klast v now := by
    rw [← List.cons_append, List.foldl_append]
    rfl
  rw [hsplit]
  set F := (k1 :: mid).foldl (fun s k => s.Set k v now)
    (⟨[], [], (N : Int), 0, 0⟩ : Cache K V) with hF
  have hk1_ne : k1 ≠ klast := by
    intro h
    exact hklast_not (h ▸ List.mem_cons_self _ _)
  have hlookklast : mapLookup F.items klast = none :=
    Option.not_isSome_iff_eq_none.mp (fun hs => hklast_not ((hlook0 klast).mp hs))
  have hcapfull : ((F.evictList.length : Int) ≥ F.capacity) := by
    rw [hlenl0, hcap0]
    simp only [List.length_cons]
    simp only [List.length_append, List.length_singleton] at hlen
    push_cast
    omega
  have hne_fill : F.evictList ≠ [] := by
    intro h
    rw [h] at hlenl0
    simp at hlenl0
  obtain ⟨last, hlast⟩ : ∃ p, F.evictList.getLast? = some p := by
    cases hg : F.evictList.getLast? with
    | some p => exact ⟨p, rfl⟩
    | none => exact absurd (List.getLast?_eq_none_iff.mp hg) hne_fill
  have hlastkey : last.2.key = k1 := by
    have h1 : (F.evictList.map (fun p => p.2.key)).getLast?
        = some last.2.key := by
      rw [List.getLast?_map, hlast]
      rfl
    rw [hmap0, List.reverse_cons, List.getLast?_concat] at h1
    exact (Option.some.inj h1).symm
  have hTitems : (F.Set klast v now).items =
      mapInsert (mapDelete F.items k1) klast F.nextId := by
    rw [Set_absent_evict_eq hlookklast hcapfull hlast, hlastkey]
  have hInvF : Inv F := by
    rw [hF]
    exact foldl_Set_Inv v now (k1 :: mid)
      (Inv_fresh (N : Int) 0 hNpos (le_refl 0))
  have hInvT : Inv (F.Set klast v now) := Set_Inv hInvF klast v now
  have httlT : (F.Set klast v now).ttl = 0 := by
    rw [Set_ttl, httl0]
  constructor
  · have e1 : mapLookup (F.Set klast v now).items k1 = none := by
      rw [hTitems]
      simp only [mapInsert, mapLookup]
      rw [if_neg hk1_ne, mapLookup_mapDelete, if_neg hk1_ne,
        mapLookup_mapDelete, if_pos rfl]
    rw [Get_miss_eq e1]
  · intro k hk
    rcases List.mem_append.mp hk with hkmid | hkl
    · have hk_ne_k1 : k ≠ k1 := by
        intro h
        subst h
        exact (List.nodup_cons.mp hnd0).1 hkmid
      have hk_ne_kl : k ≠ klast := by
        intro h
        exact hklast_not (h ▸ List.mem_cons_of_mem _ hkmid)
      have hsome : (mapLookup F.items k).isSome :=
        (hlook0 k).mpr (List.mem_cons_of_mem _ hkmid)
      obtain ⟨j, hj⟩ := Option.isSome_iff_exists.mp hsome
      have hjT : mapLookup (F.Set klast v now).items k = some j := by
        rw [hTitems]
        simp only [mapInsert, mapLookup]
        rw [if_neg hk_ne_kl, mapLookup_mapDelete, if_neg hk_ne_kl,
          mapLookup_mapDelete, if_neg hk_ne_k1]
        exact hj
      obtain ⟨e', hm', _⟩ := hInvT.map_node k j hjT
      have hfindT : listFind (F.Set klast v now).evictList j = some e' :=
        listFind_of_mem hInvT.ids_nodup hm'
      rw [Get_hit_eq hjT hfindT (fun h => h.1 httlT)]
    · rw [List.mem_singleton] at hkl
      subst hkl
      obtain ⟨i, hlookT, hfindT⟩ := Set_head hInvF k v now
      rw [Get_hit_eq hlookT hfindT (fun h => h.1 httlT)]

theorem C2_lru_eviction_witness :
    (1 ≤ 2) ∧ ([(5 : Nat), 6, 7].Nodup) ∧ ([(6 : Nat), 7].length = 2) ∧
    ((([(5 : Nat), 6, 7].foldl (fun s k => s.Set k (10 : Nat) 0)
        ((New Nat Nat [WithCapacity ((2 : Nat) : Int)]).1)).Get 5 1).2.1
          = false ∧
     ∀ k ∈ [(6 : Nat), 7],
       (([(5 : Nat), 6, 7].foldl (fun s k => s.Set k (10 : Nat) 0)
        ((New Nat Nat [WithCapacity ((2 : Nat) : Int)]).1)).Get k 1).2.1
          = true) :=
  ⟨by decide, by decide, by decide,
   C2_lru_eviction Nat Nat 2 (by decide) 5 [6, 7] (by decide) (by decide)
     10 0 1⟩

end Claims

end LRU
